import Mathlib

/-!
Shallow embedding of the RAG repository's synchronization engine
(`src/populate_database.py`), process supervisor (`src/watcher.py`) and the
JSON request log (`src/fastapi_app.py`), together with proofs of the
testable properties stated in the design document.

Index writes, deletions and process spawns are modelled by the lists of
calls/states the code would issue; external services (Chroma, Ollama,
the file system) are represented by the data the code reads from them.
-/

namespace RAGSpec

/-! ## Data model: chunks (`langchain` `Document`s with their metadata) -/

/-- Python string formatting of an optional metadata value, as done by an
f-string: a missing key (`None`) renders as `"None"`. -/
def pyStr : Option String → String
  | none => "None"
  | some s => s

/-- Python string formatting of an optional integer metadata value
(page numbers are zero-based naturals). -/
def pyStrNat : Option Nat → String
  | none => "None"
  | some n => toString n

/-- A document chunk: `metadata.get("source")`, `metadata.get("page")`,
`metadata.get("id")` (assigned by `calculate_chunk_ids`) and the page
content. -/
structure Document where
  source : Option String
  page : Option Nat
  id : Option String
  content : String
deriving DecidableEq, Repr

/-- The string `f"{source}:{page}"` computed at `populate_database.py:158`. -/
def page_id (c : Document) : String :=
  pyStr c.source ++ ":" ++ pyStrNat c.page

/-- The loop body of `calculate_chunk_ids` (`populate_database.py:155-167`):
state is `last_page_id` (initially `None`) and `current_chunk_index`
(initially `0`); the index is incremented when the page id repeats and reset
to `0` otherwise, and `f"{current_page_id}:{current_chunk_index}"` is stored
in the chunk's `id` metadata. -/
def calcAux : Option String → Nat → List Document → List Document
  | _, _, [] => []
  | last_page_id, current_chunk_index, c :: rest =>
    let current_page_id := page_id c
    let idx := if some current_page_id = last_page_id then
                 current_chunk_index + 1 else 0
    { c with id := some (current_page_id ++ ":" ++ toString idx) } ::
      calcAux (some current_page_id) idx rest

/-- `calculate_chunk_ids` (`populate_database.py:150-169`). -/
def calculate_chunk_ids (chunks : List Document) : List Document :=
  calcAux none 0 chunks

/-- The `id` metadata of every chunk after identity assignment. -/
def assignedIds (chunks : List Document) : List (Option String) :=
  (calculate_chunk_ids chunks).map (fun c => c.id)

/-! ## Index writer: `add_to_chroma` (`populate_database.py:123-147`) -/

/-- `BATCH_SIZE` (`populate_database.py:132`). -/
def BATCH_SIZE : Nat := 50

/-- `new_chunks` (`populate_database.py:135`): chunks whose freshly assigned
id is not already present in the index's id set. -/
def new_chunks (existing_ids : List String) (chunks : List Document) :
    List Document :=
  (calculate_chunk_ids chunks).filter
    (fun c => !(existing_ids.any (fun i => c.id == some i)))

/-- The batching loop `for i in range(0, len(l), BATCH_SIZE): l[i:i+BATCH_SIZE]`
(`populate_database.py:140-141`): `range(0, n, b)` has `(n + b - 1) / b`
elements `0, b, 2b, ...`, and the slice `l[i:i+b]` is `take b (drop i l)`. -/
def pyBatched (l : List Document) : List (List Document) :=
  (List.range ((l.length + BATCH_SIZE - 1) / BATCH_SIZE)).map
    (fun j => (l.drop (j * BATCH_SIZE)).take BATCH_SIZE)

/-- The sequence of `db.add_documents` calls issued by `add_to_chroma`
(`populate_database.py:132-146`): no call when `new_chunks` is empty,
otherwise one call per batch. -/
def add_to_chroma (existing_ids : List String) (chunks : List Document) :
    List (List Document) :=
  let nc := new_chunks existing_ids chunks
  if nc.isEmpty then [] else pyBatched nc

/-! ## Synchronizer: `sync_with_directory` (`populate_database.py:65-120`)

The index is modelled by the list of its records' metadata: each record has
an `id` and a `source` (both stored in metadata by `calculate_chunk_ids`
and the loader). -/

/-- One persisted index record's metadata, as returned by
`db.get(include=["metadatas"])`. -/
structure IndexRecord where
  id : String
  source : String
deriving DecidableEq, Repr

/-- `db.delete(ids=...)`: removes every record whose id is listed. -/
def db_delete (db : List IndexRecord) (ids : List String) : List IndexRecord :=
  db.filter (fun r => !(ids.any (fun i => r.id == i)))

/-- `db.update(ids=[theId], metadatas=[m])`: replaces the metadata of the
record(s) keyed by `theId`. -/
def db_update (db : List IndexRecord) (theId : String) (m : IndexRecord) :
    List IndexRecord :=
  db.map (fun r => if r.id == theId then m else r)

/-- `existing_sources` (`populate_database.py:77`): the set of `source`
metadata values, modelled as a duplicate-free list. -/
def existing_sources (db : List IndexRecord) : List String :=
  (db.map (fun r => r.source)).dedup

/-- `removed_sources = existing_sources - current_sources`
(`populate_database.py:84`). -/
def removed_sources (db : List IndexRecord) (current_sources : List String) :
    List String :=
  (existing_sources db).filter (fun s => !(current_sources.any (fun t => s == t)))

/-- `removed_ids` (`populate_database.py:87-89`): ids of all records whose
source is removed, read from the snapshot taken at the start of the pass. -/
def removed_ids (db : List IndexRecord) (current_sources : List String) :
    List String :=
  (db.filter (fun r =>
      (removed_sources db current_sources).any (fun s => r.source == s))).map
    (fun r => r.id)

/-- The deletion stage of `sync_with_directory`
(`populate_database.py:75-90`): when `removed_sources` is nonempty, delete
every record whose id was collected in `removed_ids`. -/
def sync_delete_stage (db : List IndexRecord) (current_sources : List String) :
    List IndexRecord :=
  if (removed_sources db current_sources).isEmpty then db
  else db_delete db (removed_ids db current_sources)

/-- `os.path.basename` for POSIX paths: the suffix after the last `/`. -/
def basename (p : String) : String :=
  (p.data.foldl (fun acc c => if c = '/' then [] else acc ++ [c]) []).asString

/-- `detect_renamed_files` (`populate_database.py:100-109`): for each
existing source absent from the current corpus, the first current source
with an identical basename (if any) is recorded as its rename target. -/
def detect_renamed_files (existing current : List String) :
    List (String × String) :=
  existing.foldl
    (fun renamed_files source =>
      if current.any (fun t => source == t) then renamed_files
      else
        match current.find? (fun new_source =>
            basename source == basename new_source) with
        | some new_source => renamed_files ++ [(source, new_source)]
        | none => renamed_files)
    []

/-- `update_source_in_db` (`populate_database.py:112-120`): re-reads the
database (`db.get`, line 114) at call time and, for every record of that
snapshot whose source equals `old_source`, rewrites its metadata with the
new source via `db.update`. -/
def update_source_in_db (db : List IndexRecord) (old_source new_source : String) :
    List IndexRecord :=
  db.foldl
    (fun d metadata =>
      if metadata.source == old_source then
        db_update d metadata.id { metadata with source := new_source }
      else d)
    db

/-- `sync_with_directory` (`populate_database.py:65-97`): deletion stage,
then rename detection over the sources snapshot taken at line 75-77,
then one `update_source_in_db` call per detected rename. -/
def sync_with_directory (db : List IndexRecord) (current_sources : List String) :
    List IndexRecord :=
  let db1 := sync_delete_stage db current_sources
  let renamed_files := detect_renamed_files (existing_sources db) current_sources
  renamed_files.foldl (fun d p => update_source_in_db d p.1 p.2) db1

/-! ## Process supervisor: `watcher.py`

A supervisor state holds the list of pids of currently live service
processes, the `server_process` variable (a pid, possibly of an already
terminated process), and a fresh-pid counter.  Each primitive action of
`restart_server` and `main` is one state; a run's trace is the list of all
states it passes through. -/

/-- Supervisor state: live service-process pids, the `server_process`
handle variable (`watcher.py:17`), and a counter supplying fresh pids. -/
structure SupState where
  live : List Nat
  handle : Option Nat
  next : Nat
deriving DecidableEq, Repr

/-- State at `watcher.py` module load: no process spawned yet,
`server_process = None`. -/
def initState : SupState := ⟨[], none, 0⟩

/-- `server_process.terminate(); server_process.wait()`
(`watcher.py:37-38`): blocks until the held process has exited, so it is
no longer live; the handle variable is not cleared. -/
def terminateStep (s : SupState) : SupState :=
  match s.handle with
  | some p => { s with live := s.live.erase p }
  | none => s

/-- `server_process = subprocess.Popen(SERVER_COMMAND)`
(`watcher.py:52` and `watcher.py:70`): a fresh process becomes live and
the handle is updated. -/
def spawnStep (s : SupState) : SupState :=
  { live := s.live ++ [s.next], handle := some s.next, next := s.next + 1 }

/-- The states `restart_server` (`watcher.py:30-53`) passes through, given
whether the `populate_database.py` subprocess succeeds: terminate-and-wait
first; on populate failure the function returns without spawning
(`watcher.py:48`); on success a new process is spawned. -/
def restart_server_trace (s : SupState) (populateOk : Bool) : List SupState :=
  let s1 := terminateStep s
  if populateOk then [s1, spawnStep s1] else [s1]

/-- The state in which `restart_server` returns. -/
def restart_server_final (s : SupState) (populateOk : Bool) : SupState :=
  if populateOk then spawnStep (terminateStep s) else terminateStep s

/-- The watcher callback loop: each file event runs one full
`restart_server` cycle to completion before the next is handled
(`watcher.py:23-27`, sequential per the watchdog callback model). -/
def watch_loop_trace : SupState → List Bool → List SupState
  | _, [] => []
  | s, ok :: rest =>
    restart_server_trace s ok ++
      watch_loop_trace (restart_server_final s ok) rest

/-- Final state after a sequence of event-triggered restart cycles. -/
def watch_loop_final (s : SupState) (events : List Bool) : SupState :=
  events.foldl restart_server_final s

/-- All states `main` (`watcher.py:56-88`) passes through: initial populate
(on failure `main` returns with no process spawned, `watcher.py:66`), then
the first spawn, then one restart cycle per observed file event. -/
def main_trace (initOk : Bool) (events : List Bool) : List SupState :=
  if initOk then
    [initState, spawnStep initState] ++ watch_loop_trace (spawnStep initState) events
  else [initState]

/-- Supervisor invariant: at most one live process, and any live process is
the one the handle refers to. -/
def SupInv (s : SupState) : Prop :=
  s.live.length ≤ 1 ∧ ∀ p ∈ s.live, s.handle = some p

/-! ## Request log: `log_to_json` (`fastapi_app.py:70-82`) -/

/-- State of the log file: absent, present but not parseable as JSON
(carrying its raw text), parseable as JSON but not as an array, or a
parsed array of records (records abstracted to strings). -/
inductive LogFile where
  | missing
  | unparseable (raw : String)
  | nonArray
  | parsed (logs : List String)
deriving DecidableEq, Repr

/-- Python exceptions relevant to `log_to_json`. -/
inductive PyExn where
  | fileNotFound
  | jsonDecode
  | attributeError
deriving DecidableEq, Repr

/-- The value `json.load(f)` produces, or the exception it raises. -/
inductive PyVal where
  | arr (l : List String)
  | nonList
deriving DecidableEq, Repr

/-- `json.load` over the log file (`fastapi_app.py:74-75`). -/
def json_load : LogFile → Except PyExn PyVal
  | .missing => .error .fileNotFound
  | .unparseable _ => .error .jsonDecode
  | .nonArray => .ok .nonList
  | .parsed l => .ok (.arr l)

/-- The inner `try` (`fastapi_app.py:72-77`): `logs = []`, then
`logs = json.load(f)`, with `FileNotFoundError` and `JSONDecodeError`
swallowed by `pass` (these are the only exceptions `json_load` raises). -/
def inner_read (fs : LogFile) : PyVal :=
  match json_load fs with
  | .error _ => .arr []
  | .ok v => v

/-- `logs.append(data)` (`fastapi_app.py:78`): raises `AttributeError`
when the parsed value is not a list. -/
def list_append : PyVal → String → Except PyExn (List String)
  | .arr l, d => .ok (l ++ [d])
  | .nonList, _ => .error .attributeError

/-- The body of the outer `try` (`fastapi_app.py:72-80`): read, append,
rewrite the whole file with the appended array. -/
def log_to_json_body (fs : LogFile) (d : String) : Except PyExn LogFile :=
  match list_append (inner_read fs) d with
  | .ok logs => .ok (.parsed logs)
  | .error e => .error e

/-- `log_to_json` (`fastapi_app.py:70-82`): the outer `except Exception`
handler catches every exception and only prints, so the second component
(the exception propagated to the caller) is always `none`; on an exception
the file is left as it was. -/
def log_to_json (fs : LogFile) (d : String) : LogFile × Option PyExn :=
  match log_to_json_body fs d with
  | .ok fs' => (fs', none)
  | .error _ => (fs, none)

/-! ## Specification-side definitions (from the design document's words) -/

/-- Modelled from the spec: the sequence numbers the identity-assignment
algorithm is specified to produce — position `0` of the chunk list (and
every position opening a new maximal run of equal page ids) gets sequence
`0`, and a position whose page id equals its predecessor's gets the
predecessor's sequence plus one. -/
def specSeq (ps : List String) : Nat → Nat
  | 0 => 0
  | i + 1 => if ps.getD (i + 1) "" = ps.getD i "" then specSeq ps i + 1 else 0

/-- The sequence counter values `calculate_chunk_ids`'s loop assigns, as a
pure view of the state threading in `calcAux`. -/
def seqAux : Option String → Nat → List String → List Nat
  | _, _, [] => []
  | last, k, p :: rest =>
    let k' := if some p = last then k + 1 else 0
    k' :: seqAux (some p) k' rest

/-- A list is grouped when equal values occur contiguously: any value
sitting between two equal values equals them. -/
def Grouped (ps : List String) : Prop :=
  ∀ i j k, i ≤ j → j ≤ k → k < ps.length →
    ps.getD i "" = ps.getD k "" → ps.getD j "" = ps.getD i ""

/-! ## Decimal-digit machinery for reasoning about the id strings -/

/-- Numeric value of a decimal digit character. -/
def chVal (c : Char) : Nat := c.toNat - 48

/-- Value of a most-significant-first decimal digit string. -/
def parseDigits (l : List Char) : Nat :=
  l.foldl (fun a c => a * 10 + chVal c) 0

/-! ## Concrete inputs used by counterexamples and witnesses -/

/-- An index holding two records of one source file, about to be renamed. -/
def c1_db : List IndexRecord :=
  [⟨"/old/a.pdf:0:0", "/old/a.pdf"⟩, ⟨"/old/a.pdf:0:1", "/old/a.pdf"⟩]

/-- The corpus after the rename: same basename, new directory. -/
def c1_current : List String := ["/new/a.pdf"]

/-- A chunk list violating grouped ordering: the `(source, page)` pair of
the first chunk reappears after a chunk of a different pair. -/
def c10Bad : List Document :=
  [⟨some "a", some 0, none, "x"⟩, ⟨some "b", some 0, none, "y"⟩,
   ⟨some "a", some 0, none, "z"⟩]

/-- A one-chunk corpus whose id is already indexed. -/
def c2w : List Document := [⟨some "s", some 0, none, "t"⟩]

/-- Two chunks of the same page. -/
def c3w : List Document :=
  [⟨some "s", some 0, none, "u"⟩, ⟨some "s", some 0, none, "v"⟩]

/-- A corpus producing 51 new chunks (more than one batch). -/
def c7w : List Document := List.replicate 51 ⟨some "s", some 0, none, "w"⟩

/-- Two chunk lists with identical metadata but different contents. -/
def c8w1 : List Document := [⟨some "s", some 0, none, "p"⟩]

/-- See `c8w1`. -/
def c8w2 : List Document := [⟨some "s", some 0, none, "q"⟩]

/-- A grouped two-chunk list. -/
def c10w : List Document :=
  [⟨some "s", some 0, none, "g"⟩, ⟨some "s", some 0, none, "h"⟩]

/-- A two-record index from which one source disappears. -/
def c5w_db : List IndexRecord := [⟨"k1", "/d/a.pdf"⟩, ⟨"k2", "/d/b.pdf"⟩]

/-- The corpus with `/d/a.pdf` removed. -/
def c5w_current : List String := ["/d/b.pdf"]

/-! # Theorems -/

/-! ## Supervisor lemmas -/

theorem terminateStep_handle (s : SupState) :
    (terminateStep s).handle = s.handle := by
  cases h : s.handle <;> simp [terminateStep, h]

theorem terminateStep_next (s : SupState) :
    (terminateStep s).next = s.next := by
  cases h : s.handle <;> simp [terminateStep, h]

theorem terminateStep_live_nil {s : SupState} (hs : SupInv s) :
    (terminateStep s).live = [] := by
  obtain ⟨h1, h2⟩ := hs
  cases hh : s.handle with
  | none =>
    cases hl : s.live with
    | nil => simp [terminateStep, hh, hl]
    | cons a t =>
      have := h2 a (by simp [hl])
      rw [hh] at this
      exact absurd this (by simp)
  | some p =>
    simp only [terminateStep, hh]
    cases hl : s.live with
    | nil => simp
    | cons a t =>
      have ha := h2 a (by simp [hl])
      rw [hh] at ha
      have hap : a = p := by simpa using ha.symm
      cases t with
      | nil => simp [hap]
      | cons b t2 => simp [hl] at h1

theorem supInv_terminate {s : SupState} (hs : SupInv s) :
    SupInv (terminateStep s) := by
  refine ⟨?_, ?_⟩ <;> simp [terminateStep_live_nil hs]

theorem supInv_spawn {s : SupState} (h : s.live = []) :
    SupInv (spawnStep s) := by
  refine ⟨?_, ?_⟩ <;> simp [spawnStep, h]

theorem supInv_restart_final {s : SupState} (hs : SupInv s) (ok : Bool) :
    SupInv (restart_server_final s ok) := by
  cases ok with
  | false => simpa [restart_server_final] using supInv_terminate hs
  | true =>
    simpa [restart_server_final] using
      supInv_spawn (terminateStep_live_nil hs)

theorem restart_trace_bound {s : SupState} (hs : SupInv s) (ok : Bool) :
    ∀ t ∈ restart_server_trace s ok, t.live.length ≤ 1 := by
  intro t ht
  cases ok with
  | false =>
    simp [restart_server_trace] at ht
    simp [ht, terminateStep_live_nil hs]
  | true =>
    simp [restart_server_trace] at ht
    rcases ht with h | h <;> subst h
    · simp [terminateStep_live_nil hs]
    · simp [spawnStep, terminateStep_live_nil hs]

theorem watch_trace_bound {s : SupState} (hs : SupInv s) (events : List Bool) :
    ∀ t ∈ watch_loop_trace s events, t.live.length ≤ 1 := by
  induction events generalizing s with
  | nil => intro t ht; simp [watch_loop_trace] at ht
  | cons ok rest ih =>
    intro t ht
    simp only [watch_loop_trace, List.mem_append] at ht
    rcases ht with h | h
    · exact restart_trace_bound hs ok t h
    · exact ih (supInv_restart_final hs ok) t h

theorem supInv_init : SupInv initState := by
  refine ⟨?_, ?_⟩ <;> simp [initState, SupInv]

theorem supInv_watch_final {s : SupState} (hs : SupInv s) (events : List Bool) :
    SupInv (watch_loop_final s events) := by
  induction events generalizing s with
  | nil => simpa [watch_loop_final]
  | cons ok rest ih =>
    simpa [watch_loop_final] using ih (supInv_restart_final hs ok)

/-! ## C4: at most one live service process at every observable instant -/

/-- C4: every state the supervisor's lifecycle passes through — for any
outcome of the initial database population and any sequence of
event-triggered restart cycles with any populate outcomes — has at most
one live service process. -/
theorem supervisor_at_most_one_live (initOk : Bool) (events : List Bool)
    (t : SupState) (ht : t ∈ main_trace initOk events) :
    t.live.length ≤ 1 := by
  cases initOk with
  | false =>
    simp [main_trace] at ht
    simp [ht, initState]
  | true =>
    simp only [main_trace, if_true, List.mem_append, List.mem_cons,
      List.mem_singleton] at ht
    rcases ht with (h | h | h) | h
    · simp [h, initState]
    · simp [h, initState, spawnStep]
    · simp at h
    · exact watch_trace_bound (supInv_spawn (by simp [initState])) events t h

/-- Witness for C4 at a concrete run: after a successful initialization and
one successful restart cycle, the final state is in the trace and has one
live process. -/
theorem supervisor_at_most_one_live_witness :
    (⟨[1], some 1, 2⟩ : SupState) ∈ main_trace true [true] ∧
    (⟨[1], some 1, 2⟩ : SupState).live.length ≤ 1 :=
  ⟨by decide, supervisor_at_most_one_live true [true] ⟨[1], some 1, 2⟩ (by decide)⟩

/-! ## C6: a failed resynchronization leaves no service process -/

/-- C6: from any invariant-satisfying supervisor state, a restart cycle
whose synchronization subprocess fails terminates the old service process
and spawns no replacement (no live process remains); as long as subsequent
cycles keep failing, every observable state still has no live process; and
the first successful cycle ends with exactly one live process again. -/
theorem failed_resync_leaves_no_server (s : SupState) (hs : SupInv s)
    (oks : List Bool) (hoks : ∀ o ∈ oks, o = false) :
    (restart_server_final s false).live = [] ∧
    (∀ t ∈ watch_loop_trace (restart_server_final s false) oks, t.live = []) ∧
    (restart_server_final
        (watch_loop_final (restart_server_final s false) oks) true).live.length
      = 1 := by
  have hfail : ∀ s' : SupState, SupInv s' →
      (restart_server_final s' false).live = [] := by
    intro s' hs'
    simpa [restart_server_final] using terminateStep_live_nil hs'
  refine ⟨hfail s hs, ?_, ?_⟩
  · have hallnil : ∀ oks' : List Bool, (∀ o ∈ oks', o = false) →
        ∀ s' : SupState, SupInv s' → s'.live = [] →
        ∀ t ∈ watch_loop_trace s' oks', t.live = [] := by
      intro oks'
      induction oks' with
      | nil => intro _ s' _ _ t ht; simp [watch_loop_trace] at ht
      | cons ok rest ih =>
        intro hok s' hs' _ t ht
        have hokf : ok = false := hok ok (by simp)
        subst hokf
        simp only [watch_loop_trace, List.mem_append] at ht
        rcases ht with h | h
        · simp [restart_server_trace] at h
          simp [h, terminateStep_live_nil hs']
        · exact ih (fun o ho => hok o (by simp [ho]))
            (restart_server_final s' false)
            (supInv_restart_final hs' false) (hfail s' hs') t h
    exact hallnil oks hoks (restart_server_final s false)
      (supInv_restart_final hs false) (hfail s hs)
  · have hinv : SupInv (watch_loop_final (restart_server_final s false) oks) :=
      supInv_watch_final (supInv_restart_final hs false) oks
    have hz := terminateStep_live_nil hinv
    simp only [restart_server_final, Bool.false_eq_true, if_false] at hz
    simp [restart_server_final, spawnStep, hz]

/-- Witness for C6 at a concrete state with one live process and one
subsequent failing cycle. -/
theorem failed_resync_leaves_no_server_witness :
    (restart_server_final ⟨[0], some 0, 1⟩ false).live = [] ∧
    (∀ t ∈ watch_loop_trace (restart_server_final ⟨[0], some 0, 1⟩ false)
        [false], t.live = []) ∧
    (restart_server_final
        (watch_loop_final (restart_server_final ⟨[0], some 0, 1⟩ false)
          [false]) true).live.length = 1 :=
  failed_resync_leaves_no_server ⟨[0], some 0, 1⟩
    ⟨by simp, by intro p hp; simp at hp; simp [hp]⟩ [false] (by simp)

/-! ## C9: log append on an unparseable log file -/

/-- C9: when the log file exists but is not parseable JSON, appending a
record rewrites the file to contain exactly the one new record, discarding
whatever was stored before; and for every file state, no exception from
the logging path propagates to the caller. -/
theorem log_discards_unparseable_and_never_throws :
    (∀ raw d, log_to_json (.unparseable raw) d = (.parsed [d], none)) ∧
    (∀ fs d, (log_to_json fs d).2 = none) := by
  refine ⟨fun raw d => rfl, fun fs d => ?_⟩
  cases fs <;> rfl

/-! ## Index-writer lemmas -/

theorem calcAux_id_isSome :
    ∀ (l : List Document) (last : Option String) (k : Nat),
      ∀ c ∈ calcAux last k l, c.id.isSome := by
  intro l
  induction l with
  | nil => intro last k c hc; simp [calcAux] at hc
  | cons a rest ih =>
    intro last k c hc
    simp only [calcAux, List.mem_cons] at hc
    rcases hc with h | h
    · simp [h]
    · exact ih _ _ c h

theorem new_chunks_eq_nil {existing_ids : List String} {chunks : List Document}
    (h : ∀ c ∈ calculate_chunk_ids chunks, c.id ∈ existing_ids.map some) :
    new_chunks existing_ids chunks = [] := by
  rw [new_chunks, List.filter_eq_nil_iff]
  intro c hc
  obtain ⟨i, hi, hid⟩ := List.mem_map.mp (h c hc)
  simp only [Bool.not_eq_true', Bool.not_eq_false, List.any_eq_true, beq_iff_eq]
  exact ⟨i, hi, hid.symm⟩

/-- Joining the slices `l[j*B : j*B+B]` for `j < k` recovers `l` whenever
`k` batches suffice to cover `l`. -/
theorem slices_join :
    ∀ (k : Nat) (l : List Document), l.length ≤ k * BATCH_SIZE →
      ((List.range k).map
        (fun j => (l.drop (j * BATCH_SIZE)).take BATCH_SIZE)).flatten = l := by
  intro k
  induction k with
  | zero =>
    intro l hl
    have : l = [] := List.eq_nil_of_length_eq_zero (by omega)
    simp [this]
  | succ k ih =>
    intro l hl
    rw [List.range_succ_eq_map, List.map_cons, List.map_map, List.flatten_cons]
    have hslice : ((List.range k).map
        ((fun j => (l.drop (j * BATCH_SIZE)).take BATCH_SIZE) ∘ Nat.succ)) =
        (List.range k).map
          (fun j => ((l.drop BATCH_SIZE).drop (j * BATCH_SIZE)).take BATCH_SIZE) := by
      refine List.map_congr_left ?_
      intro j _
      simp only [Function.comp]
      rw [List.drop_drop]
      congr 1
      simp [Nat.succ_mul, Nat.add_comm]
    rw [hslice, ih (l.drop BATCH_SIZE)
      (by simp only [List.length_drop]; simp only [Nat.succ_mul] at hl; omega)]
    simp

theorem pyBatched_join (l : List Document) : (pyBatched l).flatten = l := by
  refine slices_join _ l ?_
  have hB : 0 < BATCH_SIZE := by simp [BATCH_SIZE]
  simp only [BATCH_SIZE] at *
  omega

/-! ## C2: idempotence of the ingestion step -/

/-- C2: if every id assigned to the chunk list is already present in the
index's existing id set, `add_to_chroma` issues zero write calls; in
particular, a second run of the full pipeline over an unchanged corpus —
where the index now also holds all ids inserted by the first run — issues
zero write calls. -/
theorem add_to_chroma_idempotent (existing_ids : List String)
    (chunks : List Document)
    (h : ∀ c ∈ calculate_chunk_ids chunks, c.id ∈ existing_ids.map some) :
    add_to_chroma existing_ids chunks = [] ∧
    add_to_chroma
      (existing_ids ++ (calculate_chunk_ids chunks).filterMap (fun c => c.id))
      chunks = [] := by
  constructor
  · rw [add_to_chroma, new_chunks_eq_nil h]
    rfl
  · rw [add_to_chroma, new_chunks_eq_nil ?h2]
    · rfl
    case h2 =>
      intro c hc
      have hsome := calcAux_id_isSome chunks none 0 c hc
      obtain ⟨x, hx⟩ := Option.isSome_iff_exists.mp hsome
      refine List.mem_map.mpr ⟨x, ?_, hx.symm⟩
      refine List.mem_append_right _ ?_
      exact List.mem_filterMap.mpr ⟨c, hc, hx⟩

/-- Witness for C2: a one-chunk corpus whose id `"s:0:0"` is already in the
index. -/
theorem add_to_chroma_idempotent_witness :
    add_to_chroma ["s:0:0"] c2w = [] ∧
    add_to_chroma (["s:0:0"] ++ (calculate_chunk_ids c2w).filterMap (fun c => c.id))
      c2w = [] :=
  add_to_chroma_idempotent ["s:0:0"] c2w (by decide)

/-! ## C7: batch bound of the index writer -/

/-- C7: when more than `BATCH_SIZE` new chunks are to be inserted, the
writer issues exactly `⌈n / BATCH_SIZE⌉ = (n + BATCH_SIZE - 1) / BATCH_SIZE`
write calls, each carrying at most `BATCH_SIZE` chunks, and their
concatenation is exactly the new-chunk list in order. -/
theorem add_to_chroma_batch_bound (existing_ids : List String)
    (chunks : List Document)
    (h : BATCH_SIZE < (new_chunks existing_ids chunks).length) :
    (add_to_chroma existing_ids chunks).length
      = ((new_chunks existing_ids chunks).length + BATCH_SIZE - 1) / BATCH_SIZE ∧
    (∀ b ∈ add_to_chroma existing_ids chunks, b.length ≤ BATCH_SIZE) ∧
    (add_to_chroma existing_ids chunks).flatten = new_chunks existing_ids chunks := by
  have hne : (new_chunks existing_ids chunks).isEmpty = false := by
    rw [List.isEmpty_eq_false_iff_exists_mem]
    cases hnc : new_chunks existing_ids chunks with
    | nil => rw [hnc] at h; simp at h
    | cons a t => exact ⟨a, by simp⟩
  have hadd : add_to_chroma existing_ids chunks
      = pyBatched (new_chunks existing_ids chunks) := by
    rw [add_to_chroma, hne]
    simp
  refine ⟨?_, ?_, ?_⟩
  · rw [hadd]; simp [pyBatched]
  · intro b hb
    rw [hadd] at hb
    obtain ⟨j, _, hbj⟩ := List.mem_map.mp hb
    rw [← hbj]
    simp
  · rw [hadd]; exact pyBatched_join _

/-- Witness for C7: an empty index and a 51-chunk corpus produce two write
calls. -/
theorem add_to_chroma_batch_bound_witness :
    BATCH_SIZE < (new_chunks [] c7w).length ∧
    (add_to_chroma [] c7w).length
      = ((new_chunks [] c7w).length + BATCH_SIZE - 1) / BATCH_SIZE ∧
    (∀ b ∈ add_to_chroma [] c7w, b.length ≤ BATCH_SIZE) ∧
    (add_to_chroma [] c7w).flatten = new_chunks [] c7w :=
  ⟨by decide, add_to_chroma_batch_bound [] c7w (by decide)⟩

/-! ## Synchronizer deletion lemmas -/

theorem mem_removed_ids_iff {db : List IndexRecord} {current_sources : List String}
    (hids : (db.map (fun r => r.id)).Nodup) {r : IndexRecord} (hr : r ∈ db) :
    r.id ∈ removed_ids db current_sources ↔
      r.source ∈ removed_sources db current_sources := by
  constructor
  · intro h
    rw [removed_ids] at h
    obtain ⟨r', hr', hid⟩ := List.mem_map.mp h
    have hr'db : r' ∈ db := List.mem_of_mem_filter hr'
    have heq : r' = r := List.inj_on_of_nodup_map hids hr'db hr hid
    have hpred := List.of_mem_filter hr'
    rw [heq] at hpred
    simp only [List.any_eq_true, beq_iff_eq] at hpred
    obtain ⟨s, hs, hss⟩ := hpred
    rwa [hss]
  · intro h
    rw [removed_ids]
    refine List.mem_map.mpr ⟨r, List.mem_filter.mpr ⟨hr, ?_⟩, rfl⟩
    simp only [List.any_eq_true, beq_iff_eq]
    exact ⟨r.source, h, rfl⟩

/-! ## C5: the deletion stage deletes exactly the removed sources' records -/

/-- C5: for every index state (whose record ids are distinct, as they are
the keys of the vector store) and every corpus state, the deletion stage of
a synchronization pass keeps exactly the records whose `source` is not a
removed source (`existing_sources - current_sources`): records of removed
sources are all deleted, and no other record is deleted. -/
theorem sync_delete_exact (db : List IndexRecord) (current_sources : List String)
    (hids : (db.map (fun r => r.id)).Nodup) :
    sync_delete_stage db current_sources
      = db.filter (fun r =>
          !((removed_sources db current_sources).any (fun s => r.source == s))) := by
  rw [sync_delete_stage]
  by_cases hre : (removed_sources db current_sources).isEmpty
  · rw [if_pos hre]
    rw [List.isEmpty_iff] at hre
    rw [hre]
    simp
  · rw [if_neg hre, db_delete]
    refine List.filter_congr ?_
    intro r hr
    have hiff := @mem_removed_ids_iff db current_sources hids r hr
    by_cases hmem : r.source ∈ removed_sources db current_sources
    · have hid : r.id ∈ removed_ids db current_sources := hiff.mpr hmem
      have h1 : (removed_ids db current_sources).any (fun i => r.id == i) = true := by
        simp only [List.any_eq_true, beq_iff_eq]
        exact ⟨r.id, hid, rfl⟩
      have h2 : (removed_sources db current_sources).any (fun s => r.source == s)
          = true := by
        simp only [List.any_eq_true, beq_iff_eq]
        exact ⟨r.source, hmem, rfl⟩
      rw [h1, h2]
    · have hid : r.id ∉ removed_ids db current_sources := fun hc => hmem (hiff.mp hc)
      have h1 : (removed_ids db current_sources).any (fun i => r.id == i) = false := by
        simp only [List.any_eq_false, beq_iff_eq]
        intro i hi hri
        exact hid (hri ▸ hi)
      have h2 : (removed_sources db current_sources).any (fun s => r.source == s)
          = false := by
        simp only [List.any_eq_false, beq_iff_eq]
        intro s hs hrs
        exact hmem (hrs ▸ hs)
      rw [h1, h2]

/-- Witness for C5: a two-record index with distinct ids, one source
removed from the corpus. -/
theorem sync_delete_exact_witness :
    (c5w_db.map (fun r => r.id)).Nodup ∧
    sync_delete_stage c5w_db c5w_current
      = c5w_db.filter (fun r =>
          !((removed_sources c5w_db c5w_current).any (fun s => r.source == s))) :=
  ⟨by decide, sync_delete_exact c5w_db c5w_current (by decide)⟩

/-! ## C1: rename handling destroys the renamed file's records (code bug) -/

/-- C1 (code bug): on an index holding two records of `/old/a.pdf` and a
corpus in which that file now lives at `/new/a.pdf` (same basename, unique
in the corpus), the synchronization pass does detect the rename pair, but
its deletion stage has already deleted both records — `/old/a.pdf` is in
`existing_sources - current_sources` — so the subsequent
`update_source_in_db` re-reads an index holding no record with the old
source and updates nothing: the pass ends with an empty index instead of
two records with preserved chunk ids and rewritten `source` metadata. -/
theorem sync_destroys_renamed_records :
    detect_renamed_files (existing_sources c1_db) c1_current
      = [("/old/a.pdf", "/new/a.pdf")] ∧
    sync_delete_stage c1_db c1_current = [] ∧
    update_source_in_db (sync_delete_stage c1_db c1_current)
      "/old/a.pdf" "/new/a.pdf" = [] ∧
    sync_with_directory c1_db c1_current = [] := by
  refine ⟨by decide, by decide, by decide, by decide⟩

/-! ## Identity-assignment lemmas -/

theorem seqAux_length :
    ∀ (ps : List String) (last : Option String) (k : Nat),
      (seqAux last k ps).length = ps.length := by
  intro ps
  induction ps with
  | nil => intro last k; rfl
  | cons p rest ih => intro last k; simp [seqAux, ih]

/-- The ids `calcAux` assigns are the page ids paired with the sequence
numbers of `seqAux`, rendered as `f"{page_id}:{seq}"`. -/
theorem calcAux_map_id :
    ∀ (l : List Document) (last : Option String) (k : Nat),
      (calcAux last k l).map (fun c => c.id)
        = List.zipWith (fun p s => some (p ++ ":" ++ toString s))
            (l.map page_id) (seqAux last k (l.map page_id)) := by
  intro l
  induction l with
  | nil => intro last k; rfl
  | cons a rest ih =>
    intro last k
    simp only [calcAux, List.map_cons, seqAux, List.zipWith_cons_cons]
    exact congrArg _ (ih _ _)

theorem zipWith_getD (f : String → Nat → Option String) :
    ∀ (as : List String) (bs : List Nat) (i : Nat),
      i < as.length → i < bs.length →
      (List.zipWith f as bs).getD i none = f (as.getD i "") (bs.getD i 0) := by
  intro as
  induction as with
  | nil => intro bs i h _; simp at h
  | cons a as' ih =>
    intro bs i h1 h2
    cases bs with
    | nil => simp at h2
    | cons b bs' =>
      cases i with
      | zero => rfl
      | succ j =>
        simp only [List.zipWith_cons_cons, List.getD_cons_succ]
        exact ih bs' j (by simpa using h1) (by simpa using h2)

theorem seqAux_getD_zero (ps : List String) (last : Option String) (k : Nat)
    (h : ps ≠ []) :
    (seqAux last k ps).getD 0 0
      = if some (ps.getD 0 "") = last then k + 1 else 0 := by
  cases ps with
  | nil => exact absurd rfl h
  | cons p rest => rfl

theorem seqAux_getD_succ :
    ∀ (ps : List String) (last : Option String) (k i : Nat), i + 1 < ps.length →
      (seqAux last k ps).getD (i + 1) 0
        = if ps.getD (i + 1) "" = ps.getD i ""
          then (seqAux last k ps).getD i 0 + 1 else 0 := by
  intro ps
  induction ps with
  | nil => intro last k i h; simp at h
  | cons p rest ih =>
    intro last k i h
    cases i with
    | zero =>
      have hre : rest ≠ [] := by
        intro hh
        rw [hh] at h
        simp at h
      simp only [seqAux, List.getD_cons_succ, List.getD_cons_zero]
      rw [seqAux_getD_zero rest _ _ hre]
      simp
    | succ j =>
      simp only [seqAux, List.getD_cons_succ]
      exact ih (some p) _ j (by simpa using h)

/-- The loop's sequence counter agrees with the specification's
run-based description at every position. -/
theorem seqAux_eq_specSeq (ps : List String) :
    ∀ i, i < ps.length → (seqAux none 0 ps).getD i 0 = specSeq ps i := by
  intro i
  induction i with
  | zero =>
    intro h
    have hne : ps ≠ [] := by
      intro hh
      rw [hh] at h
      simp at h
    rw [seqAux_getD_zero ps none 0 hne]
    simp [specSeq]
  | succ j ihj =>
    intro h
    rw [seqAux_getD_succ ps none 0 j h]
    have hj : j < ps.length := by omega
    rw [ihj hj]
    simp only [specSeq]

/-! ## C3: the assigned ids follow the specified algorithm -/

/-- C3: for every chunk list and position, the id assigned by
`calculate_chunk_ids` is `f"{page_id}:{seq}"` where `page_id` is
`f"{source}:{page}"` of that chunk and `seq` is the specification's
sequence number: `0` at the start of each maximal run of equal page ids
and the predecessor's sequence plus one inside a run. -/
theorem calculate_chunk_ids_follows_spec (chunks : List Document) (i : Nat)
    (h : i < chunks.length) :
    (assignedIds chunks).getD i none
      = some ((chunks.map page_id).getD i "" ++ ":"
          ++ toString (specSeq (chunks.map page_id) i)) := by
  rw [assignedIds, calculate_chunk_ids, calcAux_map_id chunks none 0]
  have h1 : i < (chunks.map page_id).length := by simpa using h
  have h2 : i < (seqAux none 0 (chunks.map page_id)).length := by
    rw [seqAux_length]
    exact h1
  rw [zipWith_getD _ _ _ i h1 h2, seqAux_eq_specSeq _ i h1]

/-- Witness for C3 at position 1 of a two-chunk page: the second chunk of
the run gets sequence 1. -/
theorem calculate_chunk_ids_follows_spec_witness :
    1 < c3w.length ∧
    (assignedIds c3w).getD 1 none
      = some ((c3w.map page_id).getD 1 "" ++ ":"
          ++ toString (specSeq (c3w.map page_id) 1)) :=
  ⟨by decide, calculate_chunk_ids_follows_spec c3w 1 (by decide)⟩

/-! ## C8: determinism of identity assignment -/

/-- C8: the assigned ids depend only on the chunks' `(source, page)`
metadata sequence: two runs over chunk lists with identical metadata
projections produce identical id lists (hence the same multiset of ids). -/
theorem chunk_ids_deterministic (l1 l2 : List Document)
    (h : l1.map (fun c => (c.source, c.page)) = l2.map (fun c => (c.source, c.page))) :
    assignedIds l1 = assignedIds l2 := by
  have hp : l1.map page_id = l2.map page_id := by
    have h1 : ∀ l : List Document,
        l.map page_id
          = (l.map (fun c => (c.source, c.page))).map
              (fun q => pyStr q.1 ++ ":" ++ pyStrNat q.2) := by
      intro l
      rw [List.map_map]
      rfl
    rw [h1 l1, h1 l2, h]
  rw [assignedIds, calculate_chunk_ids, calcAux_map_id l1 none 0,
    assignedIds, calculate_chunk_ids, calcAux_map_id l2 none 0, hp]

/-- Witness for C8: two one-chunk lists with equal metadata and different
contents get the same ids. -/
theorem chunk_ids_deterministic_witness :
    c8w1.map (fun c => (c.source, c.page)) = c8w2.map (fun c => (c.source, c.page)) ∧
    assignedIds c8w1 = assignedIds c8w2 :=
  ⟨by decide, chunk_ids_deterministic c8w1 c8w2 (by decide)⟩

/-! ## Decimal representation lemmas (for id-string injectivity) -/

theorem digitChar_ne_colon (m : Nat) (hm : m < 10) : Nat.digitChar m ≠ ':' := by
  interval_cases m <;> decide

theorem toDigitsCore_ne_colon :
    ∀ (fuel n : Nat) (acc : List Char), (∀ c ∈ acc, c ≠ ':') →
      ∀ c ∈ Nat.toDigitsCore 10 fuel n acc, c ≠ ':' := by
  intro fuel
  induction fuel with
  | zero =>
    intro n acc hacc c hc
    exact hacc c hc
  | succ f ih =>
    intro n acc hacc c hc
    simp only [Nat.toDigitsCore] at hc
    by_cases h : n / 10 = 0
    · rw [if_pos h] at hc
      rcases List.mem_cons.mp hc with h1 | h1
      · rw [h1]; exact digitChar_ne_colon _ (by omega)
      · exact hacc c h1
    · rw [if_neg h] at hc
      refine ih (n / 10) _ ?_ c hc
      intro c' hc'
      rcases List.mem_cons.mp hc' with h1 | h1
      · rw [h1]; exact digitChar_ne_colon _ (by omega)
      · exact hacc c' h1

theorem toDigits_ne_colon (n : Nat) : ':' ∉ Nat.toDigits 10 n := by
  intro hmem
  exact toDigitsCore_ne_colon (n + 1) n [] (by intro c hc; simp at hc) ':' hmem rfl

/-- `toDigitsCore` emits the digits of `n` in front of the accumulator. -/
theorem toDigitsCore_append :
    ∀ (n fuel : Nat) (acc : List Char), n < fuel →
      Nat.toDigitsCore 10 fuel n acc = Nat.toDigitsCore 10 fuel n [] ++ acc := by
  intro n
  induction n using Nat.strong_induction_on with
  | _ n ih =>
    intro fuel acc hfuel
    cases fuel with
    | zero => omega
    | succ f =>
      simp only [Nat.toDigitsCore]
      by_cases h : n / 10 = 0
      · rw [if_pos h, if_pos h]
        simp
      · rw [if_neg h, if_neg h]
        have hlt : n / 10 < n := by omega
        have hf : n / 10 < f := by omega
        rw [ih (n / 10) hlt f _ hf, ih (n / 10) hlt f [Nat.digitChar (n % 10)] hf]
        simp

/-- `toDigitsCore` does not depend on the fuel once it suffices. -/
theorem toDigitsCore_fuel :
    ∀ (n f1 f2 : Nat) (acc : List Char), n < f1 → n < f2 →
      Nat.toDigitsCore 10 f1 n acc = Nat.toDigitsCore 10 f2 n acc := by
  intro n
  induction n using Nat.strong_induction_on with
  | _ n ih =>
    intro f1 f2 acc h1 h2
    cases f1 with
    | zero => omega
    | succ a =>
      cases f2 with
      | zero => omega
      | succ b =>
        simp only [Nat.toDigitsCore]
        by_cases h : n / 10 = 0
        · rw [if_pos h, if_pos h]
        · rw [if_neg h, if_neg h]
          exact ih (n / 10) (by omega) a b _ (by omega) (by omega)

theorem chVal_digitChar (m : Nat) (h : m < 10) : chVal (Nat.digitChar m) = m := by
  interval_cases m <;> decide

theorem parseDigits_append_singleton (xs : List Char) (d : Char) :
    parseDigits (xs ++ [d]) = parseDigits xs * 10 + chVal d := by
  simp [parseDigits, List.foldl_append]

/-- Parsing the decimal digit string of `n` recovers `n`. -/
theorem parseDigits_toDigits : ∀ n : Nat, parseDigits (Nat.toDigits 10 n) = n := by
  intro n
  induction n using Nat.strong_induction_on with
  | _ n ih =>
    rw [Nat.toDigits]
    by_cases h : n / 10 = 0
    · simp only [Nat.toDigitsCore, if_pos h]
      have hn : n < 10 := by omega
      have hmod : n % 10 = n := Nat.mod_eq_of_lt hn
      simp [parseDigits, hmod, chVal_digitChar n hn]
    · simp only [Nat.toDigitsCore, if_neg h]
      have hlt : n / 10 < n := by omega
      rw [toDigitsCore_append (n / 10) n [Nat.digitChar (n % 10)] (by omega),
        toDigitsCore_fuel (n / 10) n (n / 10 + 1) [] (by omega) (by omega)]
      rw [← Nat.toDigits, parseDigits_append_singleton, ih (n / 10) hlt,
        chVal_digitChar (n % 10) (by omega)]
      omega

theorem natToString_inj {m n : Nat} (h : toString m = toString n) : m = n := by
  have hd : Nat.toDigits 10 m = Nat.toDigits 10 n := congrArg String.data h
  have hm := parseDigits_toDigits m
  rw [hd, parseDigits_toDigits n] at hm
  exact hm.symm

/-- Splitting a character list at a last colon (the suffix being
colon-free) is unique. -/
theorem split_at_last_colon :
    ∀ (as bs cs ds : List Char), ':' ∉ bs → ':' ∉ ds →
      as ++ ':' :: bs = cs ++ ':' :: ds → as = cs ∧ bs = ds := by
  intro as
  induction as with
  | nil =>
    intro bs cs ds hb hd h
    cases cs with
    | nil =>
      simp only [List.nil_append, List.cons.injEq] at h
      exact ⟨rfl, h.2⟩
    | cons c cs' =>
      simp only [List.nil_append, List.cons_append, List.cons.injEq] at h
      exact absurd (h.2 ▸ List.mem_append_right cs' (List.mem_cons_self ':' ds)) hb
  | cons a as' ih =>
    intro bs cs ds hb hd h
    cases cs with
    | nil =>
      simp only [List.cons_append, List.nil_append, List.cons.injEq] at h
      exact absurd (h.2 ▸ List.mem_append_right as' (List.mem_cons_self ':' bs)) hd
    | cons c cs' =>
      simp only [List.cons_append, List.cons.injEq] at h
      obtain ⟨hac, hrest⟩ := h
      obtain ⟨h1, h2⟩ := ih bs cs' ds hb hd hrest
      exact ⟨by rw [hac, h1], h2⟩

/-- The id encoding `f"{page_id}:{seq}"` is injective: equal id strings
have equal page ids and equal sequence numbers. -/
theorem encode_id_inj {p1 p2 : String} {s1 s2 : Nat}
    (h : p1 ++ ":" ++ toString s1 = p2 ++ ":" ++ toString s2) :
    p1 = p2 ∧ s1 = s2 := by
  have hdata : p1.data ++ ':' :: Nat.toDigits 10 s1
      = p2.data ++ ':' :: Nat.toDigits 10 s2 := by
    have h0 := congrArg String.data h
    simp only [String.data_append] at h0
    simpa [List.append_assoc] using h0
  obtain ⟨hp, hs⟩ := split_at_last_colon p1.data (Nat.toDigits 10 s1) p2.data
    (Nat.toDigits 10 s2) (toDigits_ne_colon s1) (toDigits_ne_colon s2) hdata
  refine ⟨String.ext hp, ?_⟩
  have := parseDigits_toDigits s1
  rw [hs, parseDigits_toDigits s2] at this
  exact this.symm

/-! ## Uniqueness of ids under grouped ordering -/

/-- Inside a run of equal page ids, the sequence counter increases by one
per position. -/
theorem seqAux_run (ps : List String) (i : Nat) :
    ∀ j, i ≤ j → j < ps.length →
      (∀ m, i ≤ m → m ≤ j → ps.getD m "" = ps.getD i "") →
      (seqAux none 0 ps).getD j 0 = (seqAux none 0 ps).getD i 0 + (j - i) := by
  intro j hij
  induction j, hij using Nat.le_induction with
  | base => intro _ _; simp
  | succ n hn ihn =>
    intro hlen hrun
    rw [seqAux_getD_succ ps none 0 n hlen]
    have h1 : ps.getD (n + 1) "" = ps.getD i "" := hrun (n + 1) (by omega) (le_refl _)
    have h2 : ps.getD n "" = ps.getD i "" := hrun n hn (by omega)
    rw [h1, h2, if_pos rfl,
      ihn (by omega) (fun m hm1 hm2 => hrun m hm1 (by omega))]
    omega

theorem list_getD_eq_get (l : List (Option String)) (i : Nat) (h : i < l.length) :
    l.getD i none = l.get ⟨i, h⟩ := by
  simp [List.getD_eq_getElem?_getD, List.getElem?_eq_getElem h]

/-- Under grouped page-id ordering, the assigned ids are pairwise
distinct. -/
theorem grouped_nodup (chunks : List Document)
    (hg : Grouped (chunks.map page_id)) : (assignedIds chunks).Nodup := by
  have hform : assignedIds chunks
      = List.zipWith (fun p s => some (p ++ ":" ++ toString s))
          (chunks.map page_id)
          (seqAux none 0 (chunks.map page_id)) := by
    rw [assignedIds, calculate_chunk_ids]
    exact calcAux_map_id chunks none 0
  rw [hform]
  have hlen : (List.zipWith (fun p s => some (p ++ ":" ++ toString s))
      (chunks.map page_id) (seqAux none 0 (chunks.map page_id))).length
      = (chunks.map page_id).length := by
    rw [List.length_zipWith, seqAux_length]
    simp
  have key : ∀ i j (hi : i < (chunks.map page_id).length)
      (hj : j < (chunks.map page_id).length), i < j →
      (List.zipWith (fun p s => some (p ++ ":" ++ toString s))
        (chunks.map page_id) (seqAux none 0 (chunks.map page_id))).getD i none ≠
      (List.zipWith (fun p s => some (p ++ ":" ++ toString s))
        (chunks.map page_id) (seqAux none 0 (chunks.map page_id))).getD j none := by
    intro i j hi hj hij heq
    have hsl : ∀ m, m < (chunks.map page_id).length →
        m < (seqAux none 0 (chunks.map page_id)).length := by
      intro m hm
      rw [seqAux_length]
      exact hm
    rw [zipWith_getD _ _ _ i hi (hsl i hi), zipWith_getD _ _ _ j hj (hsl j hj)] at heq
    have henc := encode_id_inj (Option.some.inj heq)
    have hrun : ∀ m, i ≤ m → m ≤ j →
        (chunks.map page_id).getD m "" = (chunks.map page_id).getD i "" := by
      intro m hm1 hm2
      exact hg i m j hm1 hm2 hj henc.1
    have hstep := seqAux_run (chunks.map page_id) i j (by omega) hj hrun
    rw [henc.2] at hstep
    omega
  rw [List.nodup_iff_injective_get]
  intro a b hab
  obtain ⟨i, hi⟩ := a
  obtain ⟨j, hj⟩ := b
  rcases Nat.lt_trichotomy i j with hlt | heq | hgt
  · exfalso
    refine key i j (by omega) (by omega) hlt ?_
    rw [list_getD_eq_get _ i hi, list_getD_eq_get _ j hj, hab]
  · exact Fin.ext heq
  · exfalso
    refine key j i (by omega) (by omega) hgt ?_
    rw [list_getD_eq_get _ i hi, list_getD_eq_get _ j hj, hab]

/-! ## C10: duplicate ids without the grouped-ordering precondition -/

/-- C10: the chunk list `c10Bad` — in which the `(source, page)` pair of
the first chunk reappears after a chunk of a different pair, violating the
grouped-ordering precondition — gets the same id `"a:0:0"` assigned to its
first and third (distinct) chunks, so the assigned ids are not pairwise
distinct; and under the grouped-ordering precondition the assigned ids are
always pairwise distinct. -/
theorem chunk_ids_unique_only_if_grouped :
    (assignedIds c10Bad).getD 0 none = some "a:0:0" ∧
    (assignedIds c10Bad).getD 2 none = some "a:0:0" ∧
    ¬ Grouped (c10Bad.map page_id) ∧
    ¬ (assignedIds c10Bad).Nodup ∧
    ∀ chunks : List Document, Grouped (chunks.map page_id) →
      (assignedIds chunks).Nodup := by
  refine ⟨by decide, by decide, ?_, by decide, grouped_nodup⟩
  intro hg
  have h2 : (2 : Nat) < (c10Bad.map page_id).length := by decide
  have := hg 0 1 2 (by omega) (by omega) h2 (by decide)
  exact absurd this (by decide)

/-- Witness for C10's grouped-ordering half at a grouped two-chunk list. -/
theorem chunk_ids_unique_only_if_grouped_witness :
    (assignedIds c10w).Nodup := by
  refine chunk_ids_unique_only_if_grouped.2.2.2.2 c10w ?_
  intro i j k hij hjk hk h
  have hk2 : k < 2 := by simpa [c10w] using hk
  have hj2 : j < 2 := by omega
  have hi2 : i < 2 := by omega
  interval_cases i <;> interval_cases j <;> rfl

end RAGSpec
